import Mathlib

/-!
Verification of the xc-mcp documentation synchronisation scripts
(`scripts/extract-tool-docs.py` and `scripts/add-jsdoc.py`).

Python strings are embedded as `List Char`; every operation below is a
direct translation of the corresponding Python code.  Regular expressions
used by the scripts are translated into explicit, deterministic scanning
functions whose doc comments cite the original pattern and justify the
translation of Python's backtracking semantics.
-/

set_option maxRecDepth 10000

namespace XcMcp

/-- Python strings are modelled as lists of characters. -/
abbrev Str := List Char

/-- Turn a Lean string literal into the `Str` model. -/
def lit (s : String) : Str := s.toList

/-- The newline character. -/
def nlC : Char := '\n'

/-- The dash character used to delimit identifier segments. -/
def dashC : Char := '-'

/-- Python's `\s` / `str.strip` whitespace set (ASCII part; the scripts
only process ASCII source text). -/
def isPySpace (c : Char) : Bool :=
  c = ' ' || c = '\t' || c = '\n' || c = '\r' || c = '\x0c' || c = '\x0b'

/-- Python `\w` word characters (ASCII part). -/
def isWordCh (c : Char) : Bool :=
  c.isAlphanum || c = '_'

/-- `hasPfx s p` models Python `s.startswith(p)`. -/
def hasPfx : Str → Str → Bool
  | _, [] => true
  | [], _ :: _ => false
  | c :: s, d :: p => c = d && hasPfx s p

/-- Consume the literal `p` from the front of `s`, returning the rest,
or `none` when `s` does not start with `p`. -/
def expectLit : Str → Str → Option Str
  | s, [] => some s
  | [], _ :: _ => none
  | c :: s, d :: p => if c = d then expectLit s p else none

/-- `containsSub hay needle` models Python `needle in hay`. -/
def containsSub : Str → Str → Bool
  | [], needle => needle = []
  | c :: t, needle => hasPfx (c :: t) needle || containsSub t needle

/-- Python `s.split(sep)` for a single-character separator: splits at
every occurrence, keeping empty pieces; `''.split(sep) == ['']`. -/
def pySplit (s : Str) (sep : Char) : List Str :=
  match s with
  | [] => [[]]
  | c :: t =>
    match pySplit t sep with
    | [] => [[]]
    | r :: rs => if c = sep then [] :: r :: rs else (c :: r) :: rs

/-- Python `s.split(sep, 1)`: split at the first occurrence only. -/
def pySplit1 (s : Str) (sep : Char) : List Str :=
  match s with
  | [] => [[]]
  | c :: t =>
    if c = sep then [[], t]
    else
      match pySplit1 t sep with
      | [] => [[c]]
      | r :: rs => (c :: r) :: rs

/-- Leading-whitespace trim (half of Python `str.strip`). -/
def ltrim (s : Str) : Str := s.dropWhile isPySpace

/-- Trailing-whitespace trim (half of Python `str.strip`). -/
def rtrim (s : Str) : Str := (s.reverse.dropWhile isPySpace).reverse

/-- Python `s.strip()`. -/
def pyStrip (s : Str) : Str := rtrim (ltrim s)

/-- Append each line followed by a newline (the `md += line + "\n"`
accumulation pattern of the scripts). -/
def joinLinesNl (ls : List Str) : Str :=
  ls.foldl (fun a l => a ++ l ++ [nlC]) []

-- Basic sanity lemmas about the model -------------------------------------

theorem pySplit_ne_nil (s : Str) (sep : Char) : pySplit s sep ≠ [] := by
  cases s with
  | nil => simp [pySplit]
  | cons c t =>
    simp only [pySplit]
    cases h : pySplit t sep with
    | nil => simp
    | cons r rs => by_cases hc : c = sep <;> simp [hc]

theorem hasPfx_append (p r : Str) : hasPfx (p ++ r) p = true := by
  induction p with
  | nil => cases r <;> rfl
  | cons c t ih => simp [hasPfx, ih]

theorem expectLit_append (p r : Str) : expectLit (p ++ r) p = some r := by
  induction p with
  | nil => cases r <;> rfl
  | cons c t ih => simp [expectLit, ih]

theorem hasPfx_iff (s p : Str) : hasPfx s p = true ↔ p <+: s := by
  induction p generalizing s with
  | nil => simp [hasPfx]
  | cons d q ih =>
    cases s with
    | nil => simp [hasPfx]
    | cons c t =>
      simp only [hasPfx, Bool.and_eq_true, decide_eq_true_eq, ih]
      constructor
      · rintro ⟨rfl, u, rfl⟩
        exact ⟨u, rfl⟩
      · rintro ⟨u, hu⟩
        injection hu with h1 h2
        exact ⟨h1.symm, u, h2⟩

theorem containsSub_nil_needle (s : Str) : containsSub s [] = true := by
  cases s <;> simp [containsSub, hasPfx]

theorem containsSub_of_infix {needle hay : Str}
    (h : needle <:+: hay) : containsSub hay needle = true := by
  obtain ⟨pre, post, rfl⟩ := h
  induction pre with
  | nil =>
    cases needle with
    | nil => exact containsSub_nil_needle _
    | cons c t =>
      simp only [List.nil_append, containsSub, Bool.or_eq_true]
      exact Or.inl ((hasPfx_iff _ _).mpr ⟨post, rfl⟩)
  | cons c t ih =>
    simp only [List.cons_append, containsSub, Bool.or_eq_true]
    exact Or.inr ih

/-!
## `extract-tool-docs.py`: category classifier and filename deriver
-/

/-- The `categories` dictionary of `get_tool_category`
(`extract-tool-docs.py`, lines 59–65): category name mapped to the list
of identifier prefixes that select it. -/
def categoriesTable : List (Str × List Str) :=
  [(lit "xcodebuild", [lit "xcodebuild"]),
   (lit "simctl", [lit "simctl"]),
   (lit "idb", [lit "idb"]),
   (lit "cache", [lit "cache"]),
   (lit "persistence", [lit "persistence"])]

/-- `get_tool_category` (`extract-tool-docs.py`, lines 48–72): split the
identifier on dashes and look the first segment up in `categoriesTable`;
unmatched prefixes yield `"unknown"`.  `parts[0]` never raises in the
source because Python `split` always returns a non-empty list
(`pySplit_ne_nil` is the corresponding fact of the model); the model
reads the head with a default. -/
def get_tool_category (tool_name : Str) : Str :=
  match categoriesTable.find?
      (fun e => e.2.contains ((pySplit tool_name dashC).headD [])) with
  | some e => e.1
  | none => lit "unknown"

/-- `get_tool_filename` (`extract-tool-docs.py`, lines 74–85): split the
identifier at the first dash; when it has two parts return the second,
otherwise the whole identifier. -/
def get_tool_filename (tool_name : Str) : Str :=
  let parts := pySplit1 tool_name dashC
  if parts.length = 2 then parts.getD 1 [] else tool_name

/-- The known category tokens of the specification's claim C6. -/
def knownCategoryTokens : List Str :=
  [lit "xcodebuild", lit "simctl", lit "idb", lit "cache", lit "persistence"]

/-- The first dash-delimited token of an identifier (the claim's
vocabulary; the same computation the source performs with `parts[0]`). -/
def firstDashToken (tool_name : Str) : Str :=
  (pySplit tool_name dashC).headD []

theorem firstDashToken_def (tool_name : Str) :
    (pySplit tool_name dashC).headD [] = firstDashToken tool_name := rfl

theorem find?_categoriesTable_eq_none {p0 : Str}
    (h : ¬ p0 ∈ knownCategoryTokens) :
    categoriesTable.find? (fun e => e.2.contains p0) = none := by
  have h1 : p0 ≠ lit "xcodebuild" := by intro e; subst e; exact h (by decide)
  have h2 : p0 ≠ lit "simctl" := by intro e; subst e; exact h (by decide)
  have h3 : p0 ≠ lit "idb" := by intro e; subst e; exact h (by decide)
  have h4 : p0 ≠ lit "cache" := by intro e; subst e; exact h (by decide)
  have h5 : p0 ≠ lit "persistence" := by intro e; subst e; exact h (by decide)
  simp [categoriesTable, List.find?, List.contains, List.any,
    h1, h2, h3, h4, h5, eq_comm]

/-- C6: the category classifier returns the identifier's first
dash-delimited token exactly when that token is one of
{xcodebuild, simctl, idb, cache, persistence}, and the sentinel
`"unknown"` for any other first token; being a total function of the
model, it raises no error. -/
theorem c6_category_classifier (tool_name : Str) :
    get_tool_category tool_name =
      (if firstDashToken tool_name ∈ knownCategoryTokens
       then firstDashToken tool_name else lit "unknown") := by
  by_cases h : firstDashToken tool_name ∈ knownCategoryTokens
  · rw [if_pos h]
    have hmem := h
    simp only [knownCategoryTokens, List.mem_cons, List.not_mem_nil, or_false] at hmem
    unfold get_tool_category
    rw [firstDashToken_def]
    rcases hmem with h0 | h0 | h0 | h0 | h0 <;> rw [h0] <;> decide
  · rw [if_neg h]
    unfold get_tool_category
    rw [firstDashToken_def, find?_categoriesTable_eq_none h]

-- C7: filename deriver ----------------------------------------------------

theorem pySplit1_no_sep {t : Str} {sep : Char} (h : ¬ sep ∈ t) :
    pySplit1 t sep = [t] := by
  induction t with
  | nil => rfl
  | cons c r ih =>
    have hc : c ≠ sep := fun hc => h (hc ▸ List.mem_cons_self c r)
    have hr : ¬ sep ∈ r := fun hr => h (List.mem_cons_of_mem c hr)
    simp [pySplit1, hc, ih hr]

theorem pySplit1_first_sep {t : Str} {sep : Char} (h : ¬ sep ∈ t) (rest : Str) :
    pySplit1 (t ++ sep :: rest) sep = [t, rest] := by
  induction t with
  | nil => simp [pySplit1]
  | cons c r ih =>
    have hc : c ≠ sep := fun hc => h (hc ▸ List.mem_cons_self c r)
    have hr : ¬ sep ∈ r := fun hr => h (List.mem_cons_of_mem c hr)
    simp [pySplit1, hc, ih hr]

/-- C7: for an identifier with at least one dash the sidecar filename
deriver drops the first dash-delimited token together with the following
dash; a dash-free identifier is returned unchanged. -/
theorem c7_filename_deriver (tok rest nm : Str)
    (htok : ¬ dashC ∈ tok) (hnm : ¬ dashC ∈ nm) :
    get_tool_filename (tok ++ dashC :: rest) = rest ∧
    get_tool_filename nm = nm := by
  constructor
  · unfold get_tool_filename
    rw [pySplit1_first_sep htok]
    rfl
  · unfold get_tool_filename
    rw [pySplit1_no_sep hnm]
    rfl

/-- Witness for C7 at the spec's own examples: `simctl-boot-device`
derives `boot-device`, and the single-token identifier `cache` is kept
unchanged. -/
theorem c7_witness :
    get_tool_filename (lit "simctl-boot-device") = lit "boot-device" ∧
    get_tool_filename (lit "cache") = lit "cache" := by
  have h := c7_filename_deriver (lit "simctl") (lit "boot-device") (lit "cache")
    (by decide) (by decide)
  have e : lit "simctl" ++ dashC :: lit "boot-device" = lit "simctl-boot-device" := by
    decide
  exact ⟨e ▸ h.1, h.2⟩

/-!
## `extract-tool-docs.py`: registration extractor (`parse_index_ts`)

The source matches, with `re.finditer`, the pattern

  `this\.server\.registerTool\(\s*['\"]([^'\"]+)['\"],\s*\{\s*description:\s*` ++
  `` [`\"]([^`\"]*(?:[^`\"]*)?)[`\"] ``

Every sub-pattern is a literal, a greedy `\s*` run, or a greedy
character-class run (`[^'\"]+`, `` [^`\"]* ``) followed by a required
character that the class excludes, so backtracking can never produce a
different result and the pattern translates to the deterministic scan
below.  (The trailing `` (?:[^`\"]*)? `` adds nothing: after the greedy
`` [^`\"]* `` no further class characters remain.)  `re.finditer` yields
non-overlapping matches scanning from the left, which `parseAux`
reproduces; the fuel argument only bounds the structural recursion and
equals the input length, which the scan never exceeds.
-/

/-- The literal head of the registration pattern. -/
def regAnchor : Str := lit "this.server.registerTool("

/-- Greedy character-class run: longest head of `s` containing no
character of `stops`, together with the remainder. -/
def runUntil (stops : List Char) (s : Str) : Str × Str :=
  (s.takeWhile (fun c => !(stops.contains c)), s.dropWhile (fun c => !(stops.contains c)))

/-- Greedy `\s*`. -/
def wsDrop (s : Str) : Str := s.dropWhile isPySpace

/-- One attempted match of the registration pattern starting exactly at
the head of `s`; returns the captured identifier and raw description and
the remainder after the match. -/
def matchRegAt (s : Str) : Option (Str × Str × Str) :=
  match expectLit s regAnchor with
  | none => none
  | some s1 =>
    match wsDrop s1 with
    | [] => none
    | q :: s3 =>
      if q = '\x27' || q = '"' then
        match runUntil ['\x27', '"'] s3 with
        | (nm, s4) =>
          if nm = [] then none
          else
            match s4 with
            | [] => none
            | _ :: s5 =>
              match s5 with
              | ',' :: s6 =>
                match wsDrop s6 with
                | '\x7b' :: s8 =>
                  match expectLit (wsDrop s8) (lit "description:") with
                  | none => none
                  | some s10 =>
                    match wsDrop s10 with
                    | [] => none
                    | o :: s12 =>
                      if o = '`' || o = '"' then
                        match runUntil ['`', '"'] s12 with
                        | (desc, s13) =>
                          match s13 with
                          | [] => none
                          | _ :: rest => some (nm, desc, rest)
                      else none
                | _ => none
              | _ => none
      else none

/-- `description.replace('\\n', '\n')` (`extract-tool-docs.py`,
line 42): rewrite each two-character escape `\`+`n` to a newline,
left to right. -/
def replaceEscNl : Str → Str
  | '\\' :: 'n' :: t => '\n' :: replaceEscNl t
  | c :: t => c :: replaceEscNl t
  | [] => []

/-- The clean-up applied to a captured description: `strip()` then the
`\n`-normalisation. -/
def cleanDescription (d : Str) : Str := replaceEscNl (pyStrip d)

/-- `re.finditer` driver: scan left to right, emit each match and resume
after it. -/
def parseAux : Nat → Str → List (Str × Str)
  | 0, _ => []
  | _, [] => []
  | fuel + 1, c :: t =>
    match matchRegAt (c :: t) with
    | some (nm, d, rest) => (nm, cleanDescription d) :: parseAux fuel rest
    | none => parseAux fuel t

/-- `parse_index_ts` (`extract-tool-docs.py`, lines 20–46). -/
def parse_index_ts (content : Str) : List (Str × Str) :=
  parseAux content.length content

/-!
## `extract-tool-docs.py`: sidecar formatter (`format_markdown`)
-/

/-- One step of the description-splitting loop of `format_markdown`
(`extract-tool-docs.py`, lines 100–118).  State:
(advantages so far, summary lines so far, `in_advantages`). -/
def splitDescStep (acc : List Str × List Str × Bool) (line : Str) :
    List Str × List Str × Bool :=
  let stripped := pyStrip line
  if containsSub line (lit "Advantages") || containsSub line (lit "Benefits")
      || containsSub line (lit "Features") then
    (acc.1, acc.2.1, true)
  else if acc.2.2 then
    if hasPfx stripped (lit "•") || hasPfx stripped (lit "-") then
      (acc.1 ++ [stripped], acc.2.1, true)
    else if hasPfx stripped (lit "###") || hasPfx stripped (lit "##") then
      (acc.1, acc.2.1 ++ [line], false)
    else if stripped = [] then acc
    else (acc.1, acc.2.1 ++ [line], false)
  else
    (acc.1, acc.2.1 ++ [line], acc.2.2)

/-- Split a description into (advantages, summary lines) as
`format_markdown` does. -/
def splitDescription (desc : Str) : List Str × List Str :=
  match (pySplit desc nlC).foldl splitDescStep ([], [], false) with
  | (advs, summ, _) => (advs, summ)

/-- `tool_name.replace('-', '_')` (single-character replacement). -/
def dashToUnderscore (s : Str) : Str :=
  s.map (fun c => if c = '-' then '_' else c)

/-- The fixed scaffold emitted after the summary/advantages sections
(`extract-tool-docs.py`, lines 133–156), up to the identifier reference
in the Notes section. -/
def mdScaffoldA : Str :=
  lit "\n## Parameters\n\n### Required\n- (See implementation for parameters)\n\n### Optional\n- (See implementation for optional parameters)\n\n## Returns\n\n- Tool execution results with structured output\n- Success/failure status\n- Guidance for next steps\n\n## Related Tools\n\n- See MCP server documentation for related tools\n\n## Notes\n\n- Tool is auto-registered with MCP server\n- Full documentation in "

/-- `format_markdown` (`extract-tool-docs.py`, lines 87–158). -/
def format_markdown (tool_name desc : Str) : Str :=
  lit "# " ++ tool_name ++ lit "\n\n"
    ++ joinLinesNl (((splitDescription desc).2.take 5).filter
        (fun l => !(pyStrip l).isEmpty))
    ++ (if (splitDescription desc).1.isEmpty then []
        else lit "\n## Advantages\n\n" ++ joinLinesNl ((splitDescription desc).1.take 5))
    ++ mdScaffoldA ++ dashToUnderscore tool_name ++ lit ".ts\n"

/-!
## Claim C4: the head of the formatter's output
-/

/-- Modelled from the spec's words for claim C4: a level-1 heading with
the raw identifier followed by "the first 5 non-blank summary lines"
— i.e. the first five of the non-blank summary lines. -/
def c4ClaimHead (name desc : Str) : Str :=
  lit "# " ++ name ++ lit "\n\n"
    ++ joinLinesNl (((splitDescription desc).2.filter
        (fun l => !(pyStrip l).isEmpty)).take 5)

/-- The description used to refute claim C4: blank lines interleaved
with five non-blank lines. -/
def c4desc : Str := lit "a\n\nb\n\nc\nd\ne"

/-- Counterexample to C4 as stated: for description
`"a\n\nb\n\nc\nd\ne"` the claimed head (heading followed by the first 5
non-blank summary lines `a b c d e`) is not a prefix of the formatter's
output — the source slices the first five raw lines `a,"",b,"",c` first
and only then drops blanks, emitting just `a b c`. -/
theorem c4_counterexample :
    ¬ (c4ClaimHead (lit "t") c4desc <+: format_markdown (lit "t") c4desc) := by
  intro h
  have hb := (hasPfx_iff (format_markdown (lit "t") c4desc)
    (c4ClaimHead (lit "t") c4desc)).mpr h
  rw [show hasPfx (format_markdown (lit "t") c4desc)
    (c4ClaimHead (lit "t") c4desc) = false by decide] at hb
  exact Bool.false_ne_true hb

/-- C4 as amended: the formatter's output begins with the level-1
heading containing the raw identifier, followed by the non-blank lines
among the **first 5 summary lines** (all of them when fewer exist),
each terminated by a newline. -/
theorem c4_heading_prefix (name desc : Str) :
    (lit "# " ++ name ++ lit "\n\n"
      ++ joinLinesNl (((splitDescription desc).2.take 5).filter
          (fun l => !(pyStrip l).isEmpty)))
      <+: format_markdown name desc := by
  refine ⟨(if (splitDescription desc).1.isEmpty then []
      else lit "\n## Advantages\n\n" ++ joinLinesNl ((splitDescription desc).1.take 5))
      ++ mdScaffoldA ++ dashToUnderscore name ++ lit ".ts\n", ?_⟩
  simp [format_markdown, List.append_assoc]

/-!
## Claim C5: descriptions with nested delimiters
-/

/-- A registration statement whose template-string description contains
a nested double quote. -/
def c5content : Str :=
  lit "this.server.registerTool(\x27t-x\x27, \x7b description: `A \"B\" C` \x7d)"

/-- Counterexample to C5 as stated: the description `A "B" C` contains a
nested double quote, and the extractor captures only the truncated
prefix `A` (the `[^`\"]*` class stops at the quote, which then closes
the match) instead of the complete identifier–description pair. -/
theorem c5_counterexample :
    parse_index_ts c5content = [(lit "t-x", lit "A")] ∧
    parse_index_ts c5content ≠ [(lit "t-x", lit "A \"B\" C")] := by
  constructor
  · decide
  · decide

-- Building blocks for the amended C5 ---------------------------------------

theorem takeWhile_middle (p : Char → Bool) (r : Str) (x : Char) (hx : p x = false) :
    ∀ l : Str, (∀ c ∈ l, p c = true) →
      ((l ++ x :: r).takeWhile p = l ∧ (l ++ x :: r).dropWhile p = x :: r) := by
  intro l
  induction l with
  | nil => intro _; simp [List.takeWhile, List.dropWhile, hx]
  | cons c t ih =>
    intro hl
    have hc := hl c (List.mem_cons_self c t)
    obtain ⟨ih1, ih2⟩ := ih (fun c' h' => hl c' (List.mem_cons_of_mem c h'))
    simp [List.takeWhile, List.dropWhile, hc, ih1, ih2]

theorem contains_pair_eq_false (c a b : Char) (h1 : c ≠ a) (h2 : c ≠ b) :
    ([a, b].contains c) = false := by
  simp [List.contains, h1, h2]

theorem runUntil_exact (stops : List Char) (x : Char) (hx : stops.contains x = true)
    (r : Str) (l : Str) (hl : ∀ c ∈ l, stops.contains c = false) :
    runUntil stops (l ++ x :: r) = (l, x :: r) := by
  unfold runUntil
  have h := takeWhile_middle (fun c => !(stops.contains c)) r x
    (show (!(stops.contains x)) = false by rw [hx]; rfl) l
    (fun c hc => show (!(stops.contains c)) = true by rw [hl c hc]; rfl)
  rw [h.1, h.2]

theorem wsDrop_cons_of_nonspace (c : Char) (t : Str) (h : isPySpace c = false) :
    wsDrop (c :: t) = c :: t := by
  simp [wsDrop, List.dropWhile, h]

/-- The middle literal of a canonical registration statement. -/
def litMid : Str := lit ", \x7b description: `"

/-- A canonical registration statement: identifier quoted with single
quotes, description delimited by backticks, followed by arbitrary
remaining source text. -/
def mkRegistration (nm desc rest : Str) : Str :=
  lit "this.server.registerTool(\x27" ++ nm
    ++ lit "\x27, \x7b description: `" ++ desc ++ lit "`" ++ rest

theorem mkRegistration_shape (nm desc rest : Str) :
    mkRegistration nm desc rest =
      regAnchor ++ '\x27' :: (nm ++ '\x27' :: (',' :: ' ' :: '\x7b' :: ' ' ::
        (lit "description:" ++ ' ' :: '`' :: (desc ++ '`' :: rest)))) := by
  have e1 : lit "this.server.registerTool(\x27" = regAnchor ++ ['\x27'] := by decide
  have e2 : lit "\x27, \x7b description: `" =
      '\x27' :: ',' :: ' ' :: '\x7b' :: ' ' :: (lit "description:" ++ [' ', '`']) := by
    decide
  have e3 : (lit "`" : Str) = ['`'] := by decide
  unfold mkRegistration
  rw [e1, e2, e3]
  simp [List.append_assoc]

theorem matchRegAt_mkRegistration (nm desc rest : Str)
    (hnm : nm ≠ []) (hnmq : ∀ c ∈ nm, c ≠ '\x27' ∧ c ≠ '"')
    (hd : ∀ c ∈ desc, c ≠ '`' ∧ c ≠ '"') :
    matchRegAt (mkRegistration nm desc rest) = some (nm, desc, rest) := by
  have hnm' : ∀ c ∈ nm, (['\x27', '"'].contains c) = false := fun c hc =>
    contains_pair_eq_false c '\x27' '"' (hnmq c hc).1 (hnmq c hc).2
  have hd' : ∀ c ∈ desc, (['`', '"'].contains c) = false := fun c hc =>
    contains_pair_eq_false c '`' '"' (hd c hc).1 (hd c hc).2
  have hrun1 := runUntil_exact ['\x27', '"'] '\x27' (by decide)
    (',' :: ' ' :: '\x7b' :: ' ' ::
      (lit "description:" ++ ' ' :: '`' :: (desc ++ '`' :: rest)))
    nm hnm'
  have hrun2 := runUntil_exact ['`', '"'] '`' (by decide) rest desc hd'
  rw [mkRegistration_shape]
  unfold matchRegAt
  rw [expectLit_append]
  simp only [wsDrop_cons_of_nonspace '\x27' _ (by decide)]
  simp only [hrun1, hrun2, hnm]
  simp only [show lit "description:" =
    ['d', 'e', 's', 'c', 'r', 'i', 'p', 't', 'i', 'o', 'n', ':'] from by decide]
  simp [wsDrop, List.dropWhile, expectLit, isPySpace, hrun2]

theorem parse_head_of_match (content nm d rest : Str)
    (h : matchRegAt content = some (nm, d, rest)) :
    (parse_index_ts content).head? = some (nm, cleanDescription d) := by
  have hnone : matchRegAt ([] : Str) = none := by decide
  have hne : content ≠ [] := by
    intro he
    rw [he, hnone] at h
    simp at h
  obtain ⟨c, t, rfl⟩ := List.exists_cons_of_ne_nil hne
  unfold parse_index_ts
  rw [List.length_cons]
  simp [parseAux, h]

/-- C5 as amended: a registration whose description spans multiple lines
and contains single quotes is captured completely, with `\n` escapes
normalised to real line breaks — provided the description contains no
backtick and no double quote (a nested backtick or double quote
terminates the capture early, see the counterexample). -/
theorem c5_clean_capture (nm desc rest : Str)
    (hnm : nm ≠ []) (hnmq : ∀ c ∈ nm, c ≠ '\x27' ∧ c ≠ '"')
    (hd : ∀ c ∈ desc, c ≠ '`' ∧ c ≠ '"') :
    (parse_index_ts (mkRegistration nm desc rest)).head? =
      some (nm, cleanDescription desc) :=
  parse_head_of_match (mkRegistration nm desc rest) nm desc rest
    (matchRegAt_mkRegistration nm desc rest hnm hnmq hd)

/-- Witness for C5 (amended) at a description that spans two real lines,
contains nested single quotes and an escaped `\n` sequence. -/
theorem c5_witness :
    (parse_index_ts (mkRegistration (lit "simctl-boot")
      (lit "Line one.\nLine \x27two\x27 with a\\nbreak.") (lit "); x"))).head? =
    some (lit "simctl-boot", lit "Line one.\nLine \x27two\x27 with a\nbreak.") := by
  have h := c5_clean_capture (lit "simctl-boot")
    (lit "Line one.\nLine \x27two\x27 with a\\nbreak.") (lit "); x")
    (by decide) (by decide) (by decide)
  rw [h]
  decide

/-!
## Filesystem model and the extractor driver (`main` of
`extract-tool-docs.py`)

The filesystem is a flat association list from path to contents; a write
shadows earlier entries.  Directory creation (`os.makedirs`) has no
observable effect in this model, and of the progress printing only the
fatal message of the missing-index branch is recorded (no claim touches
the other prints).  The script never calls `sys.exit`, so every run —
including the missing-index branch, which plainly `return`s from `main`
— finishes the process with exit status 0; the model records that
status explicitly.
-/

/-- The filesystem: path–contents pairs, most recent write first. -/
abbrev Fs := List (Str × Str)

def fsGet : Fs → Str → Option Str
  | [], _ => none
  | (p, v) :: t, q => if q = p then some v else fsGet t q

def fsWrite (fs : Fs) (p v : Str) : Fs := (p, v) :: fs

theorem fsGet_fsWrite (fs : Fs) (p v q : Str) :
    fsGet (fsWrite fs p v) q = if q = p then some v else fsGet fs q := rfl

/-- Lexicographic comparison of strings by character code
(Python `<` on `str`). -/
def strLtB : Str → Str → Bool
  | [], [] => false
  | [], _ :: _ => true
  | _ :: _, [] => false
  | a :: s, b :: t => if a = b then strLtB s t else decide (a < b)

def insertByLt (x : Str) : List Str → List Str
  | [] => [x]
  | y :: ys => if strLtB x y then x :: y :: ys else y :: insertByLt x ys

/-- Python `sorted` on a list of strings (insertion sort; the driver
only sorts the distinct category keys). -/
def sortStr (l : List Str) : List Str := l.foldr insertByLt []

/-- Insertion-ordered grouping (a Python `dict` of lists): append the
tool to an existing category's list or add a new category at the end. -/
def addToGroup (acc : List (Str × List (Str × Str))) (cat : Str)
    (td : Str × Str) : List (Str × List (Str × Str)) :=
  match acc with
  | [] => [(cat, [td])]
  | (c, l) :: r =>
    if c = cat then (c, l ++ [td]) :: r else (c, l) :: addToGroup r cat td

/-- The `by_category` dictionary of the driver
(`extract-tool-docs.py`, lines 175–181). -/
def groupByCat (ts : List (Str × Str)) : List (Str × List (Str × Str)) :=
  ts.foldl (fun acc td => addToGroup acc (get_tool_category td.1) td) []

/-- The processing order of the driver: categories sorted, then each
category's tools in registration order; each item is
(category, (tool name, description)). -/
def orderedItems (tools : List (Str × Str)) : List (Str × Str × Str) :=
  (sortStr ((groupByCat tools).map Prod.fst)).flatMap
    (fun c => ((List.lookup c (groupByCat tools)).getD []).map
      (fun td => (c, td.1, td.2)))

/-- The sidecar path `src/tools/{category}/{tool_filename}.md` for one
processing item. -/
def mdPathOfItem (it : Str × Str × Str) : Str :=
  lit "src/tools/" ++ it.1 ++ '/' :: (get_tool_filename it.2.1 ++ lit ".md")

/-- The per-tool loop of the driver (`extract-tool-docs.py`,
lines 192–210): skip when the sidecar exists, otherwise format and
write it.  State: (filesystem, written paths in order, skip count). -/
def extractLoop : Fs → List Str → Nat → List (Str × Str × Str) → Fs × List Str × Nat
  | fs, w, sk, [] => (fs, w, sk)
  | fs, w, sk, it :: rest =>
    match fsGet fs (mdPathOfItem it) with
    | some _ => extractLoop fs w (sk + 1) rest
    | none =>
      extractLoop (fsWrite fs (mdPathOfItem it) (format_markdown it.2.1 it.2.2))
        (w ++ [mdPathOfItem it]) sk rest

/-- The fixed aggregation-source path `src/index.ts`. -/
def indexPath : Str := lit "src/index.ts"

/-- The message printed when the aggregation source is missing. -/
def fatalMsg : Str := lit "❌ Could not find src/index.ts"

structure ExtractResult where
  fs : Fs
  written : List Str
  skipped : Nat
  exitCode : Nat
  msgs : List Str
deriving DecidableEq

/-- `main` of `extract-tool-docs.py` (lines 160–214).  When
`src/index.ts` is missing the function prints the error message and
plainly returns (the process then exits with status 0); otherwise it
parses the registrations, groups them by category and runs the
per-tool loop. -/
def extract_main (fs : Fs) : ExtractResult :=
  match fsGet fs indexPath with
  | none => ⟨fs, [], 0, 0, [fatalMsg]⟩
  | some content =>
    ⟨(extractLoop fs [] 0 (orderedItems (parse_index_ts content))).1,
     (extractLoop fs [] 0 (orderedItems (parse_index_ts content))).2.1,
     (extractLoop fs [] 0 (orderedItems (parse_index_ts content))).2.2,
     0, []⟩

/-!
## Claim C2: behaviour when the aggregation source is missing
-/

theorem extract_main_missing_index (fs : Fs) (h : fsGet fs indexPath = none) :
    extract_main fs = ⟨fs, [], 0, 0, [fatalMsg]⟩ := by
  unfold extract_main
  rw [h]

/-- Counterexample to C2 as stated: on an empty filesystem (no
`src/index.ts`) the run finishes with exit status **0** — `main` merely
prints the message and returns, so the claimed nonzero
(fatal-precondition) outcome does not occur. -/
theorem c2_counterexample : (extract_main []).exitCode = 0 := rfl

/-- C2 as amended: when the aggregation source is absent the run aborts
immediately after printing the missing-file message — no sidecar is
created or modified, nothing is written and nothing is skipped — but
the process outcome is exit status 0 (a plain `return` from `main`),
not a nonzero code. -/
theorem c2_abort_without_writes (fs : Fs) (h : fsGet fs indexPath = none) :
    extract_main fs = ⟨fs, [], 0, 0, [fatalMsg]⟩ :=
  extract_main_missing_index fs h

/-- Witness for C2 (amended) on the empty filesystem. -/
theorem c2_witness : extract_main [] = ⟨[], [], 0, 0, [fatalMsg]⟩ :=
  c2_abort_without_writes [] rfl

/-!
## Claim C8: the extractor is idempotent
-/

theorem extractLoop_preserves_some (items : List (Str × Str × Str)) :
    ∀ (fs : Fs) (w : List Str) (sk : Nat) (p : Str),
      (fsGet fs p).isSome = true →
      (fsGet (extractLoop fs w sk items).1 p).isSome = true := by
  induction items with
  | nil => intro fs w sk p h; exact h
  | cons it rest ih =>
    intro fs w sk p h
    unfold extractLoop
    cases hx : fsGet fs (mdPathOfItem it) with
    | some v => exact ih fs w (sk + 1) p h
    | none =>
      refine ih _ _ _ p ?_
      rw [fsGet_fsWrite]
      by_cases hp : p = mdPathOfItem it
      · rw [if_pos hp]; rfl
      · rw [if_neg hp]; exact h

theorem extractLoop_all_exist (items : List (Str × Str × Str)) :
    ∀ (fs : Fs) (w : List Str) (sk : Nat) (it : Str × Str × Str), it ∈ items →
      (fsGet (extractLoop fs w sk items).1 (mdPathOfItem it)).isSome = true := by
  induction items with
  | nil => intro fs w sk it h; exact absurd h (List.not_mem_nil it)
  | cons it0 rest ih =>
    intro fs w sk it h
    unfold extractLoop
    rcases List.mem_cons.mp h with rfl | hmem
    · cases hx : fsGet fs (mdPathOfItem it) with
      | some v =>
        refine extractLoop_preserves_some rest fs w (sk + 1) _ ?_
        rw [hx]; rfl
      | none =>
        refine extractLoop_preserves_some rest _ _ _ _ ?_
        rw [fsGet_fsWrite, if_pos rfl]; rfl
    · cases hx : fsGet fs (mdPathOfItem it0) with
      | some v => exact ih fs w (sk + 1) it hmem
      | none => exact ih _ _ _ it hmem

theorem mdPathOfItem_ne_indexPath (it : Str × Str × Str) :
    mdPathOfItem it ≠ indexPath := by
  intro h
  have h4 : List.getD (mdPathOfItem it) 4 ' ' = List.getD indexPath 4 ' ' :=
    congrArg (fun l => List.getD l 4 ' ') h
  have hl : List.getD (mdPathOfItem it) 4 ' ' = 't' := rfl
  have hr : List.getD indexPath 4 ' ' = 'i' := rfl
  rw [hl, hr] at h4
  exact absurd h4 (by decide)

theorem extractLoop_index_unchanged (items : List (Str × Str × Str)) :
    ∀ (fs : Fs) (w : List Str) (sk : Nat),
      fsGet (extractLoop fs w sk items).1 indexPath = fsGet fs indexPath := by
  induction items with
  | nil => intro fs w sk; rfl
  | cons it rest ih =>
    intro fs w sk
    unfold extractLoop
    cases hx : fsGet fs (mdPathOfItem it) with
    | some v => exact ih fs w (sk + 1)
    | none =>
      rw [ih _ _ _, fsGet_fsWrite,
        if_neg (mdPathOfItem_ne_indexPath it).symm]
  -- the `.symm` orients the inequality as `indexPath ≠ mdPathOfItem it`

theorem extractLoop_skips_all (items : List (Str × Str × Str)) :
    ∀ (fs : Fs) (w : List Str) (sk : Nat),
      (∀ it ∈ items, (fsGet fs (mdPathOfItem it)).isSome = true) →
      extractLoop fs w sk items = (fs, w, sk + items.length) := by
  induction items with
  | nil => intro fs w sk _; rfl
  | cons it rest ih =>
    intro fs w sk h
    unfold extractLoop
    cases hx : fsGet fs (mdPathOfItem it) with
    | some v =>
      rw [ih fs w (sk + 1) (fun it' h' => h it' (List.mem_cons_of_mem it h'))]
      simp [List.length_cons, Nat.add_assoc, Nat.add_comm 1 rest.length]
    | none =>
      have := h it (List.mem_cons_self it rest)
      rw [hx] at this
      exact absurd this (by decide)

/-- The processing items a second run would see: empty when the
aggregation source is absent. -/
def toolItems (fs : Fs) : List (Str × Str × Str) :=
  match fsGet fs indexPath with
  | none => []
  | some content => orderedItems (parse_index_ts content)

theorem extract_main_all_present (g : Fs) (content : Str)
    (hg : fsGet g indexPath = some content)
    (hex : ∀ it ∈ orderedItems (parse_index_ts content),
      (fsGet g (mdPathOfItem it)).isSome = true) :
    extract_main g = ⟨g, [], (orderedItems (parse_index_ts content)).length, 0, []⟩ := by
  unfold extract_main
  rw [hg]
  dsimp only
  rw [extractLoop_skips_all (orderedItems (parse_index_ts content)) g [] 0 hex]
  simp

/-- C8: running the extractor a second time over the result of a first
run changes nothing: the second run performs zero writes, every target
sidecar path already exists and is counted as skipped, and the
filesystem — hence each existing file's contents — is byte-identical. -/
theorem c8_extractor_idempotent (fs : Fs) :
    (extract_main (extract_main fs).fs).fs = (extract_main fs).fs ∧
    (extract_main (extract_main fs).fs).written = [] ∧
    (extract_main (extract_main fs).fs).skipped =
      (toolItems (extract_main fs).fs).length := by
  cases h : fsGet fs indexPath with
  | none =>
    have h1 : extract_main fs = ⟨fs, [], 0, 0, [fatalMsg]⟩ :=
      extract_main_missing_index fs h
    rw [h1]
    have h2 : extract_main (⟨fs, [], 0, 0, [fatalMsg]⟩ : ExtractResult).fs =
        ⟨fs, [], 0, 0, [fatalMsg]⟩ := extract_main_missing_index fs h
    rw [h2]
    refine ⟨rfl, rfl, ?_⟩
    show 0 = (toolItems fs).length
    unfold toolItems
    rw [h]
    rfl
  | some content =>
    have hfs1 : (extract_main fs).fs =
        (extractLoop fs [] 0 (orderedItems (parse_index_ts content))).1 := by
      unfold extract_main
      rw [h]
    have hidx : fsGet (extract_main fs).fs indexPath = some content := by
      rw [hfs1, extractLoop_index_unchanged, h]
    have hexists : ∀ it ∈ orderedItems (parse_index_ts content),
        (fsGet (extract_main fs).fs (mdPathOfItem it)).isSome = true := by
      intro it hit
      rw [hfs1]
      exact extractLoop_all_exist _ fs [] 0 it hit
    rw [extract_main_all_present (extract_main fs).fs content hidx hexists]
    refine ⟨rfl, rfl, ?_⟩
    show (orderedItems (parse_index_ts content)).length =
      (toolItems (extract_main fs).fs).length
    unfold toolItems
    rw [hidx]

/-!
## `add-jsdoc.py`: sidecar field extractor (advantages)

`load_md_content` (lines 58–67) extracts the advantages with

  `re.search(r'## Advantages.*?\n\n(.+?)(?:\n\n##|$)', content, re.DOTALL)`

Translation of the backtracking semantics:

* the leading literal anchors the match, so `re.search` succeeds from
  the first occurrence of `"## Advantages"` if it succeeds at all (the
  lazy DOTALL `.*?` reaches everything a later starting point could);
* `.*?\n\n` selects the first `"\n\n"` after the literal; if the group
  would be empty there, backtracking moves to a later `"\n\n"`, which
  can only exist when the remainder is non-empty — so the match fails
  exactly when no `"\n\n"` with a non-empty remainder follows;
* the lazy group `(.+?)(?:\n\n##|$)` grows one character at a time, so
  it ends at the first position (at least one character in) where
  `"\n\n##"` begins, or where `$` matches — end of text, or just
  before a final newline that is the last character.
-/

/-- The suffix of `s` starting at the first occurrence of `pat`
(`none` when `pat` does not occur). -/
def findSubSuffix : Str → Str → Option Str
  | [], pat => if pat = [] then some [] else none
  | c :: t, pat =>
    if hasPfx (c :: t) pat then some (c :: t) else findSubSuffix t pat

/-- The remainder just after the first `"\n\n"` of `s` (`none` when no
`"\n\n"` occurs). -/
def findNlNl : Str → Option Str
  | [] => none
  | c :: t => if hasPfx (c :: t) [nlC, nlC] then some (t.drop 1) else findNlNl t

/-- Scan for the end of the lazy group `(.+?)(?:\n\n##|$)`: stop before
the first `"\n\n##"`, or at end of text, or just before a final
newline. -/
def advScan : Str → Str
  | [] => []
  | c :: t =>
    if hasPfx (c :: t) [nlC, nlC, '#', '#'] then []
    else if c = nlC ∧ t = [] then []
    else c :: advScan t

/-- `stripped.startswith('•') or stripped.startswith('-')`. -/
def isBulletLine (l : Str) : Bool :=
  hasPfx l (lit "•") || hasPfx l (lit "-")

/-- The advantages extraction of `load_md_content` (`add-jsdoc.py`,
lines 58–67): locate the advantages block with the regular expression
above, then keep the stripped bullet lines, at most 4. -/
def extract_advantages (content : Str) : List Str :=
  match findSubSuffix content (lit "## Advantages") with
  | none => []
  | some suf =>
    match findNlNl (suf.drop 13) with
    | none => []
    | some u =>
      match u with
      | [] => []
      | c :: t =>
        ((pySplit (c :: advScan t) nlC).map pyStrip).filter isBulletLine |>.take 4

/-!
## Claim C9: bounded advantages extraction
-/

/-- The whitespace-stripped bullet lines of a document (the claim's
"bullet lines under the heading", counted for the counterexample). -/
def bulletLinesIn (s : Str) : List Str :=
  ((pySplit s nlC).map pyStrip).filter isBulletLine

/-- A sidecar document with 7 bullet lines directly under an
`## Advantages` heading — but no blank line between heading and
block. -/
def c9doc : Str :=
  lit "## Advantages\n• a1\n• a2\n• a3\n• a4\n• a5\n• a6\n• a7"

/-- Counterexample to C9 as stated: `c9doc` contains 7 bullet lines
under an `## Advantages` heading, yet the field extractor returns no
advantages at all (not 4): the `.*?\n\n` of its pattern requires a
blank line after the heading, which this document lacks. -/
theorem c9_counterexample :
    (bulletLinesIn c9doc).length = 7 ∧ extract_advantages c9doc = [] := by
  constructor
  · decide
  · decide

-- Building blocks for the amended C9 ---------------------------------------

/-- `'\n'.join` of a list of lines. -/
def joinSep : List Str → Str
  | [] => []
  | [l] => l
  | l :: m :: ls => l ++ nlC :: joinSep (m :: ls)

theorem findSubSuffix_of_hasPfx (s pat : Str) (h : hasPfx s pat = true) :
    findSubSuffix s pat = some s := by
  cases s with
  | nil =>
    cases pat with
    | nil => rfl
    | cons d p => exact absurd h (by simp [hasPfx])
  | cons c t => simp [findSubSuffix, h]

theorem hasPfx_single_iff_head (c : Char) (t : Str) (d : Char) :
    hasPfx (c :: t) [d] = false ↔ c ≠ d := by
  simp [hasPfx]

theorem hasPfx_extend_hash (s P : Str) (h : hasPfx s ['#'] = false) :
    hasPfx s ('#' :: P) = false := by
  cases s with
  | nil => rfl
  | cons c t =>
    have hc := (hasPfx_single_iff_head c t '#').mp h
    simp [hasPfx, hc]

theorem containsSub_nlP_false (P : Str) :
    ∀ l : Str, (∀ c ∈ l, c ≠ nlC) → containsSub l (nlC :: P) = false := by
  intro l
  induction l with
  | nil => intro _; simp [containsSub]
  | cons c t ih =>
    intro h
    have hc := h c (List.mem_cons_self c t)
    simp [containsSub, hasPfx, hc,
      ih (fun c' h' => h c' (List.mem_cons_of_mem c h'))]

theorem containsSub_nlP_append (P r : Str) (hr : containsSub r (nlC :: P) = false) :
    ∀ l : Str, (∀ c ∈ l, c ≠ nlC) → containsSub (l ++ r) (nlC :: P) = false := by
  intro l
  induction l with
  | nil => intro _; exact hr
  | cons a b ih =>
    intro h
    have ha := h a (List.mem_cons_self a b)
    show (hasPfx (a :: (b ++ r)) (nlC :: P)
      || containsSub (b ++ r) (nlC :: P)) = false
    rw [ih (fun c' h' => h c' (List.mem_cons_of_mem a h'))]
    simp [hasPfx, ha]

theorem joinSep_heads : ∀ lines : List Str,
    (∀ l ∈ lines, (∀ c ∈ l, c ≠ nlC) ∧ hasPfx l ['#'] = false) →
    hasPfx (joinSep lines) ['#'] = false ∧
    hasPfx (joinSep lines) [nlC, '#', '#'] = false := by
  intro lines
  induction lines with
  | nil => intro _; exact ⟨rfl, rfl⟩
  | cons l ms ih =>
    intro h
    have hl := h l (List.mem_cons_self l ms)
    cases ms with
    | nil =>
      refine ⟨hl.2, ?_⟩
      cases l with
      | nil => rfl
      | cons c t =>
        have hc : c ≠ nlC := hl.1 c (List.mem_cons_self c t)
        show hasPfx (c :: t) [nlC, '#', '#'] = false
        simp [hasPfx, hc]
    | cons m ls =>
      have hrest := ih (fun l' h' => h l' (List.mem_cons_of_mem l h'))
      constructor
      · cases l with
        | nil =>
          show hasPfx (nlC :: joinSep (m :: ls)) ['#'] = false
          simp [hasPfx, nlC]
        | cons c t =>
          have hc := (hasPfx_single_iff_head c t '#').mp hl.2
          show hasPfx (c :: (t ++ nlC :: joinSep (m :: ls))) ['#'] = false
          simp [hasPfx, hc]
      · cases l with
        | cons c t =>
          have hc : c ≠ nlC := hl.1 c (List.mem_cons_self c t)
          show hasPfx (c :: (t ++ nlC :: joinSep (m :: ls))) [nlC, '#', '#'] = false
          simp [hasPfx, hc]
        | nil =>
          show hasPfx (nlC :: joinSep (m :: ls)) [nlC, '#', '#'] = false
          have hJ2 := hasPfx_extend_hash (joinSep (m :: ls)) ['#'] hrest.1
          simp [hasPfx, hJ2]

theorem joinSep_no_nlnlhash : ∀ lines : List Str,
    (∀ l ∈ lines, (∀ c ∈ l, c ≠ nlC) ∧ hasPfx l ['#'] = false) →
    containsSub (joinSep lines) [nlC, nlC, '#', '#'] = false := by
  intro lines
  induction lines with
  | nil => intro _; decide
  | cons l ms ih =>
    intro h
    have hl := h l (List.mem_cons_self l ms)
    cases ms with
    | nil => exact containsSub_nlP_false [nlC, '#', '#'] l hl.1
    | cons m ls =>
      have hrest := ih (fun l' h' => h l' (List.mem_cons_of_mem l h'))
      have hheads := joinSep_heads (m :: ls) (fun l' h' => h l' (List.mem_cons_of_mem l h'))
      have hstep : containsSub (nlC :: joinSep (m :: ls)) [nlC, nlC, '#', '#'] = false := by
        show (hasPfx (nlC :: joinSep (m :: ls)) [nlC, nlC, '#', '#']
          || containsSub (joinSep (m :: ls)) [nlC, nlC, '#', '#']) = false
        rw [hrest]
        have he : hasPfx (nlC :: joinSep (m :: ls)) [nlC, nlC, '#', '#'] =
            hasPfx (joinSep (m :: ls)) [nlC, '#', '#'] := by simp [hasPfx]
        rw [he, hheads.2]
        rfl
      show containsSub (l ++ nlC :: joinSep (m :: ls)) [nlC, nlC, '#', '#'] = false
      exact containsSub_nlP_append [nlC, '#', '#'] (nlC :: joinSep (m :: ls)) hstep l hl.1

theorem getLast?_ne_nl (l : Str) (h : ∀ c ∈ l, c ≠ nlC) :
    l.getLast? ≠ some nlC := by
  induction l with
  | nil => simp
  | cons c t ih =>
    cases t with
    | nil =>
      simp only [List.getLast?_singleton]
      exact fun hcc => h c (List.mem_cons_self c []) (Option.some.inj hcc)
    | cons b t' =>
      rw [List.getLast?_cons_cons]
      exact ih (fun c' h' => h c' (List.mem_cons_of_mem c h'))

theorem joinSep_getLast_ne_nl : ∀ lines : List Str,
    (∀ l ∈ lines, ∀ c ∈ l, c ≠ nlC) →
    (∀ la, lines.getLast? = some la → la ≠ []) →
    (joinSep lines).getLast? ≠ some nlC := by
  intro lines
  induction lines with
  | nil => intro _ _; simp [joinSep]
  | cons l ms ih =>
    intro hnl hlast
    cases ms with
    | nil => exact getLast?_ne_nl l (hnl l (List.mem_cons_self l []))
    | cons m ls =>
      show (l ++ nlC :: joinSep (m :: ls)).getLast? ≠ some nlC
      rw [List.getLast?_append_of_ne_nil _ (by simp)]
      cases hjj : joinSep (m :: ls) with
      | nil =>
        cases ls with
        | nil =>
          have hm : m = [] := hjj
          have hne := hlast m (by rw [List.getLast?_cons_cons]; simp)
          exact absurd hm hne
        | cons m2 ls' =>
          rw [joinSep] at hjj
          exact absurd hjj (by cases m <;> simp)
      | cons x xs =>
        rw [List.getLast?_cons_cons, ← hjj]
        exact ih (fun l' h' => hnl l' (List.mem_cons_of_mem l h'))
          (fun la hla => hlast la (by rw [List.getLast?_cons_cons]; exact hla))

theorem advScan_id (l : Str)
    (h1 : containsSub l [nlC, nlC, '#', '#'] = false)
    (h2 : l.getLast? ≠ some nlC) : advScan l = l := by
  induction l with
  | nil => rfl
  | cons c t ih =>
    have hor : (hasPfx (c :: t) [nlC, nlC, '#', '#']
        || containsSub t [nlC, nlC, '#', '#']) = false := h1
    unfold advScan
    rw [(Bool.or_eq_false_iff.mp hor).1]
    simp only [if_false, Bool.false_eq_true]
    have hno : ¬ (c = nlC ∧ t = []) := by
      rintro ⟨rfl, rfl⟩
      exact h2 (by simp [List.getLast?])
    rw [if_neg hno]
    cases t with
    | nil => rfl
    | cons b t' =>
      rw [ih (Bool.or_eq_false_iff.mp hor).2
        (by rw [List.getLast?_cons_cons] at h2; exact h2)]

theorem hasPfx_pat4_straddle (c : Char) (t rest : Str) :
    hasPfx (c :: (t ++ nlC :: nlC :: '#' :: '#' :: rest)) [nlC, nlC, '#', '#'] =
    hasPfx (c :: t) [nlC, nlC, '#', '#'] := by
  rcases t with _ | ⟨y, _ | ⟨z, _ | ⟨w, t4⟩⟩⟩ <;> simp [hasPfx, nlC]

theorem advScan_append_stop (rest : Str) :
    ∀ b : Str, containsSub b [nlC, nlC, '#', '#'] = false →
      advScan (b ++ nlC :: nlC :: '#' :: '#' :: rest) = b := by
  intro b
  induction b with
  | nil =>
    intro _
    show advScan (nlC :: nlC :: '#' :: '#' :: rest) = []
    unfold advScan
    rw [show hasPfx (nlC :: nlC :: '#' :: '#' :: rest) [nlC, nlC, '#', '#'] = true
      from by simp [hasPfx]]
    simp
  | cons c t ih =>
    intro h
    have hor : (hasPfx (c :: t) [nlC, nlC, '#', '#']
        || containsSub t [nlC, nlC, '#', '#']) = false := h
    show advScan (c :: (t ++ nlC :: nlC :: '#' :: '#' :: rest)) = c :: t
    unfold advScan
    rw [hasPfx_pat4_straddle c t rest, (Bool.or_eq_false_iff.mp hor).1]
    simp only [if_false, Bool.false_eq_true]
    have hno : ¬ (c = nlC ∧ t ++ nlC :: nlC :: '#' :: '#' :: rest = []) := by
      rintro ⟨_, habs⟩
      exact absurd habs (by simp)
    rw [if_neg hno, ih (Bool.or_eq_false_iff.mp hor).2]

/-- C9 as amended: for a document in the standard layout — the
`## Advantages` heading, a blank line, then a block of newline-free
lines (bullets, blanks in between, or other lines, none starting with
`#`) containing 7 bullet lines, the block ending either at the end of
the document (with a non-blank final line) or at the next section,
i.e. a blank line followed by a `##` heading — the field extractor
returns exactly 4 advantages: the first 4 bullet lines, in order
(whitespace-stripped, as the source strips every line).  Without the
blank line after the heading the block is not found at all (see the
counterexample). -/
theorem c9_bounded_advantages (lines : List Str) (tl : Str)
    (hnl : ∀ l ∈ lines, ∀ c ∈ l, c ≠ nlC)
    (hhash : ∀ l ∈ lines, hasPfx l ['#'] = false)
    (h7 : (bulletLinesIn (joinSep lines)).length = 7)
    (htl : (tl = [] ∧ ∀ la, lines.getLast? = some la → la ≠ []) ∨
      (∃ more, tl = nlC :: nlC :: '#' :: '#' :: more)) :
    extract_advantages (lit "## Advantages\n\n" ++ (joinSep lines ++ tl)) =
      (bulletLinesIn (joinSep lines)).take 4 ∧
    (extract_advantages (lit "## Advantages\n\n" ++ (joinSep lines ++ tl))).length = 4 := by
  have hcomb : ∀ l ∈ lines, (∀ c ∈ l, c ≠ nlC) ∧ hasPfx l ['#'] = false :=
    fun l h' => ⟨hnl l h', hhash l h'⟩
  have hJne : joinSep lines ≠ [] := by
    intro hJ
    rw [hJ] at h7
    exact absurd h7 (by decide)
  obtain ⟨c, t0, hJ⟩ := List.exists_cons_of_ne_nil hJne
  have hcont : containsSub (joinSep lines) [nlC, nlC, '#', '#'] = false :=
    joinSep_no_nlnlhash lines hcomb
  have hcont0 : containsSub t0 [nlC, nlC, '#', '#'] = false := by
    rw [hJ] at hcont
    have hor : (hasPfx (c :: t0) [nlC, nlC, '#', '#']
        || containsSub t0 [nlC, nlC, '#', '#']) = false := hcont
    exact (Bool.or_eq_false_iff.mp hor).2
  have hscan : advScan (t0 ++ tl) = t0 := by
    rcases htl with ⟨rfl, hlastlines⟩ | ⟨more, rfl⟩
    · rw [List.append_nil]
      refine advScan_id t0 hcont0 ?_
      have hJlast : (joinSep lines).getLast? ≠ some nlC :=
        joinSep_getLast_ne_nl lines hnl hlastlines
      rw [hJ] at hJlast
      cases t0 with
      | nil => simp
      | cons b t' =>
        rw [List.getLast?_cons_cons] at hJlast
        exact hJlast
    · exact advScan_append_stop more t0 hcont0
  -- the three scanning stages of the regular expression
  have harr : lit "## Advantages\n\n" ++ (joinSep lines ++ tl) =
      lit "## Advantages" ++ (nlC :: nlC :: (joinSep lines ++ tl)) := rfl
  have h1 : findSubSuffix (lit "## Advantages\n\n" ++ (joinSep lines ++ tl))
      (lit "## Advantages") =
      some (lit "## Advantages\n\n" ++ (joinSep lines ++ tl)) := by
    refine findSubSuffix_of_hasPfx _ _ ?_
    rw [harr]
    exact hasPfx_append _ _
  have h2 : (lit "## Advantages\n\n" ++ (joinSep lines ++ tl)).drop 13 =
      nlC :: nlC :: (joinSep lines ++ tl) := by
    rw [harr, show (13 : Nat) = (lit "## Advantages").length from by decide,
      List.drop_left]
  have h3 : findNlNl (nlC :: nlC :: (joinSep lines ++ tl)) =
      some (joinSep lines ++ tl) := by
    rw [findNlNl]
    simp [hasPfx]
  have hmain : extract_advantages (lit "## Advantages\n\n" ++ (joinSep lines ++ tl)) =
      (bulletLinesIn (joinSep lines)).take 4 := by
    unfold extract_advantages
    rw [h1]
    dsimp only
    rw [h2, h3]
    dsimp only
    rw [show joinSep lines ++ tl = c :: (t0 ++ tl) from by rw [hJ]; rfl]
    dsimp only
    rw [hscan, show (c :: t0 : Str) = joinSep lines from hJ.symm]
    rfl
  refine ⟨hmain, ?_⟩
  rw [hmain, List.length_take, h7]
  rfl

/-- The C9 witness block: 7 bullet lines with an internal blank line. -/
def c9wLines : List Str :=
  [lit "• a1", lit "• a2", [], lit "• a3", lit "• a4", lit "• a5",
   lit "• a6", lit "• a7"]

/-- The C9 witness continuation: the next section of the document. -/
def c9wTail : Str := lit "\n\n## Parameters\n\n- (See implementation for parameters)"

/-- Witness for C9 (amended) at a document whose advantages block has
an internal blank line and is followed by a `## Parameters` section. -/
theorem c9_witness :
    extract_advantages (lit "## Advantages\n\n" ++ (joinSep c9wLines ++ c9wTail)) =
      [lit "• a1", lit "• a2", lit "• a3", lit "• a4"] := by
  have h := c9_bounded_advantages c9wLines c9wTail (by decide) (by decide)
    (by decide)
    (Or.inr ⟨lit " Parameters\n\n- (See implementation for parameters)", by decide⟩)
  rw [h.1]
  decide

/-!
## `add-jsdoc.py`: entry-point locator (`find_function_export`)

The source searches (`re.search`, no flags) for

  `(export\s+(?:async\s+)?function\s+\w+\(.*?\)\s*(?::\s*\w+)?\s*\{)`

Translation of the backtracking semantics at a fixed starting point:

* `\s+` runs are taken greedily; every character that can follow them
  (`a` of `async`, `f` of `function`, a `\w` character, `:`, `{`) is
  non-whitespace, so shorter runs can never succeed and the greedy run
  is deterministic;
* `(?:async\s+)?` prefers the present branch; when `async` followed by
  whitespace is present but the rest fails, the absent branch would
  have to read `function` where the text has `async…`, which fails
  too — so the two branches are disjoint and deterministic;
* `\w+` is greedy and the following `\(` is not a word character, so
  only the maximal run can succeed;
* `.*?` (no DOTALL: `.` excludes newlines) grows one character at a
  time; at each size the engine first tries `\)` and the tail, so the
  scan `argsScan` tries the tail at every `)` and aborts at a newline;
* in the tail `\s*(?::\s*\w+)?\s*\{`, after the greedy first `\s*` the
  optional group is tried when the next character is `:`; if it fails
  (no word character after `:\s*`), the absent branch reads `\{`
  against `:` and fails, and backtracking into the whitespace runs
  only re-reads whitespace against `:`/`{` — so the translation below
  is exhaustive.

`re.search` tries each starting offset from the left;
`searchExportAux` does the same, returning the offset and the matched
text (group 1 is the whole match).
-/

/-- The deterministic tail `\s*(?::\s*\w+)?\s*\{` after the closing
parenthesis; returns the number of characters consumed. -/
def tailAfterParen (s : Str) : Option Nat :=
  match s.dropWhile isPySpace with
  | '\x7b' :: _ => some ((s.takeWhile isPySpace).length + 1)
  | ':' :: s2 =>
    match (s2.dropWhile isPySpace).takeWhile isWordCh with
    | [] => none
    | wd =>
      match ((s2.dropWhile isPySpace).drop wd.length).dropWhile isPySpace with
      | '\x7b' :: _ =>
        some ((s.takeWhile isPySpace).length + 1 + (s2.takeWhile isPySpace).length
          + wd.length
          + (((s2.dropWhile isPySpace).drop wd.length).takeWhile isPySpace).length
          + 1)
      | _ => none
  | _ => none

/-- The lazy `.*?\)` followed by the tail: at each position, if the
character is `)` try the tail; on failure (or any other non-newline
character) extend the dot; a newline stops the search.  Returns the
number of characters consumed from the start of the arguments. -/
def argsScan : Str → Option Nat
  | [] => none
  | c :: t =>
    if c = ')' then
      match tailAfterParen t with
      | some m => some (1 + m)
      | none =>
        match argsScan t with
        | some k => some (1 + k)
        | none => none
    else if c = nlC then none
    else
      match argsScan t with
      | some k => some (1 + k)
      | none => none

/-- One attempted match of the export pattern starting at the head of
`s`; returns the number of characters matched. -/
def matchExportAt (s : Str) : Option Nat :=
  match expectLit s (lit "export") with
  | none => none
  | some s1 =>
    match s1.takeWhile isPySpace with
    | [] => none
    | w1 =>
      match
        (match expectLit (s1.drop w1.length) (lit "async") with
         | some sa =>
           match sa.takeWhile isPySpace with
           | [] => (0, s1.drop w1.length)
           | wa => (5 + wa.length, sa.drop wa.length)
         | none => (0, s1.drop w1.length)) with
      | (aLen, s2) =>
        match expectLit s2 (lit "function") with
        | none => none
        | some s3 =>
          match s3.takeWhile isPySpace with
          | [] => none
          | w2 =>
            match (s3.drop w2.length).takeWhile isWordCh with
            | [] => none
            | wd =>
              match (s3.drop w2.length).drop wd.length with
              | '(' :: s5 =>
                match argsScan s5 with
                | some k =>
                  some (6 + w1.length + aLen + 8 + w2.length + wd.length + 1 + k)
                | none => none
              | _ => none

/-- Scan every starting offset from the left
(`re.search` driver); returns the match's start offset and text. -/
def searchExportAux : Str → Nat → Option (Nat × Str)
  | [], _ => none
  | c :: t, i =>
    match matchExportAt (c :: t) with
    | some n => some (i, (c :: t).take n)
    | none => searchExportAux t (i + 1)

/-- `find_function_export` (`add-jsdoc.py`, lines 98–108), as a
function of the file content; its `tool_name` parameter is unused in
the body.  (The call-site arity error is modelled separately in
`add_jsdoc_to_file`.) -/
def find_function_export (content : Str) : Option (Nat × Str) :=
  searchExportAux content 0

/-!
## `add-jsdoc.py`: comment template
-/

/-- The fields extracted from a sidecar document by `load_md_content`
(`add-jsdoc.py`, lines 42–96). -/
structure MdInfo where
  title : Str
  what_it_does : Str
  why_use : Str
  parameters : Str
  returns : Str
  exampleStr : Str
deriving DecidableEq

/-- `JSDOC_TEMPLATE.format(...)` (`add-jsdoc.py`, lines 16–40 and
138–146): the fixed comment template with the six fields and the
relative sidecar path substituted.  In the committed program the
rendering at lines 138–146 is never reached: `add_jsdoc_to_file`
raises the call-arity `TypeError` of claim C1 first. -/
def render_jsdoc (i : MdInfo) (mdFile : Str) : Str :=
  lit "/**\n * " ++ i.title
    ++ lit "\n *\n * **What it does:**\n * " ++ i.what_it_does
    ++ lit "\n *\n * **Why you\x27d use it:**\n * " ++ i.why_use
    ++ lit "\n *\n * **Parameters:**\n * " ++ i.parameters
    ++ lit "\n *\n * **Returns:**\n * " ++ i.returns
    ++ lit "\n *\n * **Example:**\n * ```typescript\n * " ++ i.exampleStr
    ++ lit "\n * ```\n *\n * **Full documentation:** See " ++ mdFile
    ++ lit " for detailed parameters and examples\n *\n * @param args Tool arguments\n * @returns Tool result with status and guidance\n */"

theorem searchExportAux_lt : ∀ (s : Str) (i p : Nat) (f : Str),
    searchExportAux s i = some (p, f) → p < i + s.length := by
  intro s
  induction s with
  | nil => intro i p f h; exact absurd h (by simp [searchExportAux])
  | cons c t ih =>
    intro i p f h
    unfold searchExportAux at h
    cases hm : matchExportAt (c :: t) with
    | some n =>
      rw [hm] at h
      have h1 := Option.some.inj h
      have h2 : i = p := congrArg Prod.fst h1
      rw [← h2, List.length_cons]
      omega
    | none =>
      rw [hm] at h
      have := ih (i + 1) p f h
      rw [List.length_cons]
      omega

theorem find_function_export_lt (content : Str) (p : Nat) (f : Str)
    (h : find_function_export content = some (p, f)) : p < content.length := by
  have := searchExportAux_lt content 0 p f h
  omega

/-!
## `add-jsdoc.py`: per-file injector and batch driver (claims C1, C10)
-/

/-- An uncaught Python exception. -/
inductive PyErr where
  | typeError (msg : Str)
deriving DecidableEq

/-- The observable result of running a Python function: a normal
return value or an uncaught exception propagating to the caller. -/
inductive Py (α : Type) where
  | ok (val : α)
  | raised (e : PyErr)
deriving DecidableEq

/-- The message of the `TypeError` raised at `add-jsdoc.py` line 131:
`find_function_export(content)` passes one positional argument to a
function whose signature (line 98) requires two
(`content`, `tool_name`), and `tool_name` has no default. -/
def typeErrMsg : Str :=
  lit "find_function_export() missing 1 required positional argument: \x27tool_name\x27"

/-- `add_jsdoc_to_file` (`add-jsdoc.py`, lines 110–158) for a file with
the given basename, file content (`none` = unreadable) and sidecar
content (`none` = missing, in which case `load_md_content` returns the
empty, falsy dict, lines 44–48; otherwise the dict always carries its
six keys and is truthy).  Control flow of the source: read (caught
failure → `False`), bounded-prefix marker check, sidecar load — and
then the call `find_function_export(content)`, which raises an
uncaught `TypeError` because the callee requires a second positional
argument.  Lines 132–158 (the "no export function found" warning, the
template rendering, the splice and the write) are therefore
unreachable, and no reachable branch performs a write.  Returned
messages model the per-file prints. -/
def add_jsdoc_to_file (name : Str) (fileContent mdContent : Option Str) :
    Py (Bool × List Str) :=
  match fileContent with
  | none => .ok (false, [lit "   ❌ Could not read " ++ name])
  | some content =>
    if containsSub (content.take 500) (lit "/**") then
      .ok (false, [lit "   ⏭️  " ++ name ++ lit " (JSDoc already exists)"])
    else
      match mdContent with
      | none => .ok (false, [lit "   ⚠️  " ++ name ++ lit " (no markdown found)"])
      | some _ => .raised (.typeError typeErrMsg)

/-- The files skipped as multi-export files (`add-jsdoc.py`,
line 176). -/
def multiExportNames : List Str :=
  [lit "cache-management.ts", lit "persistence-tools.ts", lit "index.ts"]

/-- `Path(p).name`: the part after the last slash. -/
def basenameOf (p : Str) : Str := (pySplit p '/').getLastD []

/-- `s` ends with `sfx`. -/
def hasSfx (s sfx : Str) : Bool := hasPfx s.reverse sfx.reverse

/-- Membership of a path in `Path(dir).glob('*.ts')`: directly inside
`dir`, with the `.ts` suffix. -/
def isTsDirectPath (dir p : Str) : Bool :=
  hasPfx p (dir ++ ['/'])
    && !((p.drop (dir.length + 1)).contains '/')
    && hasSfx (p.drop (dir.length + 1)) (lit ".ts")

/-- `sorted(Path(dir).glob('*.ts'))` over the modelled filesystem
(duplicate paths collapse — a real directory lists each name once;
`glob` on a missing directory yields nothing, as in `pathlib`). -/
def tsFilesIn (fs : Fs) (dir : Str) : List Str :=
  sortStr (((fs.map Prod.fst).filter (isTsDirectPath dir)).dedup)

/-- `Path(name).stem` for a `.ts` file: the basename without its
3-character suffix. -/
def stemOf (base : Str) : Str := base.take (base.length - 3)

/-- The sidecar path for a tool source file (`add-jsdoc.py`,
lines 182–189): `with_suffix('.md')`, then the two alternative-name
remaps when that file does not exist. -/
def mdPathFor (fs : Fs) (dir tsPath : Str) : Str :=
  match fsGet fs (dir ++ '/' :: (stemOf (basenameOf tsPath) ++ lit ".md")) with
  | some _ => dir ++ '/' :: (stemOf (basenameOf tsPath) ++ lit ".md")
  | none =>
    if stemOf (basenameOf tsPath) = lit "xcodebuild-test" then
      dir ++ '/' :: lit "test.md"
    else if stemOf (basenameOf tsPath) = lit "screenshot-inline" then
      dir ++ '/' :: lit "screenshot-inline.md"
    else dir ++ '/' :: (stemOf (basenameOf tsPath) ++ lit ".md")

/-- Outcome of dispatching one `.ts` file (`add-jsdoc.py`,
lines 174–193): multi-export files are skipped by name **before** any
read, sidecar lookup or call; every other file is handed to
`add_jsdoc_to_file`. -/
inductive FileOutcome where
  | skippedMultiExport
  | processed (r : Py (Bool × List Str))
deriving DecidableEq

def processTsFile (fs : Fs) (dir tsPath : Str) : FileOutcome :=
  if basenameOf tsPath ∈ multiExportNames then .skippedMultiExport
  else
    .processed (add_jsdoc_to_file (basenameOf tsPath) (fsGet fs tsPath)
      (fsGet fs (mdPathFor fs dir tsPath)))

/-- The category list of the injector driver (`add-jsdoc.py`,
line 164). -/
def injectorCategories : List Str :=
  [lit "xcodebuild", lit "simctl", lit "idb", lit "cache", lit "persistence"]

/-- All (directory, file) pairs the driver would visit, in order. -/
def injectItems (fs : Fs) : List (Str × Str) :=
  injectorCategories.flatMap (fun cat =>
    (tsFilesIn fs (lit "src/tools/" ++ cat)).map
      (fun p => (lit "src/tools/" ++ cat, p)))

/-- One step of the driver loop.  State:
(total, success, messages, halted).  `total_count` is incremented
before the call (line 191); an uncaught exception halts the batch, so
once `halted` is set nothing further runs.  The filesystem never
changes: the only write in the per-file path sits after the raising
call and is unreachable. -/
def injectStep (fs : Fs) (st : Nat × Nat × List Str × Option PyErr)
    (item : Str × Str) : Nat × Nat × List Str × Option PyErr :=
  match st.2.2.2 with
  | some _ => st
  | none =>
    match processTsFile fs item.1 item.2 with
    | .skippedMultiExport =>
      (st.1, st.2.1,
        st.2.2.1 ++ [lit "   ⏭️  " ++ basenameOf item.2 ++ lit " (multi-export file)"],
        none)
    | .processed (.ok bm) =>
      (st.1 + 1, st.2.1 + (if bm.1 then 1 else 0), st.2.2.1 ++ bm.2, none)
    | .processed (.raised e) => (st.1 + 1, st.2.1, st.2.2.1, some e)

structure InjectResult where
  fs : Fs
  total : Nat
  success : Nat
  msgs : List Str
  halted : Option PyErr
deriving DecidableEq

/-- `main` of `add-jsdoc.py` (lines 160–195). -/
def inject_main (fs : Fs) : InjectResult :=
  ⟨fs,
   ((injectItems fs).foldl (injectStep fs) (0, 0, [], none)).1,
   ((injectItems fs).foldl (injectStep fs) (0, 0, [], none)).2.1,
   ((injectItems fs).foldl (injectStep fs) (0, 0, [], none)).2.2.1,
   ((injectItems fs).foldl (injectStep fs) (0, 0, [], none)).2.2.2⟩

/-!
## Claim C1: the locator's call site raises, halting the batch
-/

/-- A tool source file that passes the marker check and has a sidecar. -/
def c1fs : Fs :=
  [(lit "src/tools/cache/alpha.ts", lit "export function a() \x7b\x7d"),
   (lit "src/tools/cache/alpha.md", lit "# A"),
   (lit "src/tools/cache/beta.ts", lit "export function b() \x7b\x7d")]

/-- C1 (code bug): for a readable file with no comment marker in its
bounded prefix and a sidecar that loads, `add_jsdoc_to_file` does not
reach the locator's result at all — the call
`find_function_export(content)` omits the required second positional
argument and raises `TypeError`.  The exception is uncaught, so the
batch halts: on `c1fs` the driver processes only the first of the two
candidate files (`total = 1`) and stops with the error, instead of
skipping with a warning and continuing as the claim requires. -/
theorem c1_locator_call_arity :
    add_jsdoc_to_file (lit "alpha.ts")
        (some (lit "export function a() \x7b\x7d")) (some (lit "# A")) =
      .raised (.typeError typeErrMsg) ∧
    (inject_main c1fs).halted = some (.typeError typeErrMsg) ∧
    (inject_main c1fs).total = 1 := by
  refine ⟨rfl, by decide, by decide⟩

/-!
## Claim C3: injector idempotence on the committed program
-/

/-- C3: running the injector twice over the same source tree leaves
every file byte-identical after the second pass.  On the committed
program this holds degenerately: no reachable path of
`add_jsdoc_to_file` performs a write — each per-file outcome is a
caught read failure, a marker-prefix skip, a missing-sidecar warning,
or the uncaught `TypeError` of claim C1, raised at line 131 before the
splice-and-write of lines 148–153 — so neither pass modifies any
file.  In particular no file is ever spliced on the first run, and the
claim's clause about a spliced file carrying a marker that the
500-character bounded check detects is vacuous: that mechanism is
never exercised.  The theorem records that one run returns the
filesystem unchanged, that the second run is identical to the first in
every observable (counts, messages, halt state), and that after the
second pass every file's contents equal the originals. -/
theorem c3_second_pass_byte_identical (fs : Fs) :
    (inject_main fs).fs = fs ∧
    inject_main ((inject_main fs).fs) = inject_main fs ∧
    ∀ p, fsGet (inject_main ((inject_main fs).fs)).fs p = fsGet fs p :=
  ⟨rfl, rfl, fun _ => rfl⟩

/-!
## Claim C10: multi-export files are skipped unconditionally
-/

/-- C10: a file named `cache-management.ts`, `persistence-tools.ts` or
`index.ts` is dispatched to the multi-export skip branch — by name,
before any read or sidecar lookup — and the whole injector run leaves
its stored contents (indeed the whole filesystem) untouched. -/
theorem c10_multi_export_skip (fs : Fs) (dir p : Str)
    (h : basenameOf p ∈ multiExportNames) :
    processTsFile fs dir p = .skippedMultiExport ∧
    fsGet (inject_main fs).fs p = fsGet fs p := by
  constructor
  · unfold processTsFile
    rw [if_pos h]
  · rfl

/-- Witness for C10 at `src/tools/cache/index.ts` on the empty
filesystem. -/
theorem c10_witness :
    processTsFile [] (lit "src/tools/cache") (lit "src/tools/cache/index.ts") =
      .skippedMultiExport ∧
    fsGet (inject_main []).fs (lit "src/tools/cache/index.ts") =
      fsGet [] (lit "src/tools/cache/index.ts") :=
  c10_multi_export_skip [] (lit "src/tools/cache")
    (lit "src/tools/cache/index.ts") (by decide)

end XcMcp
